import Mathlib

/-!
Verification development for `commit_compare` (sources:
`src/commit_compare/gittools.py` and `src/commit_compare/compare.py`).

The Python code is shallowly embedded: pure fragments become Lean
functions, the generator `GitRepo.iter_commits` becomes a recursive
function from the (timestamp-sorted) commit list to the list of yielded
commits, and pandas operations are modelled as explicit list
manipulations.  Machine-level details that no claim touches (UTF-8
encoding of hashes, pandas row ordering of outer merges, matplotlib
rendering) are abstracted.
-/

namespace CommitCompare

/-! ### String helpers

`strStarts s p` models Python `s.startswith(p)`; `strContains hay needle`
models Python `needle in hay`. Both work over the character lists of the
strings. -/

def strStarts (s p : String) : Bool := p.data.isPrefixOf s.data

def subHolds {α : Type} [DecidableEq α] (needle : List α) : List α → Bool
  | [] => needle.isEmpty
  | a :: rest => needle.isPrefixOf (a :: rest) || subHolds needle rest

def strContains (hay needle : String) : Bool := subHolds needle.data hay.data

/-! ### `gittools.GitRepo.iter_commits`

A commit is modelled by its hex hash and its committed timestamp
(`committed_datetime`, abstracted to an integer; the `tzinfo`
normalisation in the Python comparison only adjusts the representation
of the two datetimes being compared and is absorbed into the integer
timestamps). -/

structure Commit where
  hexsha : String
  timestamp : Int
deriving DecidableEq, Repr

structure Filters where
  start_date : Option Int
  end_date : Option Int
  start_commit : Option String
  end_commit : Option String
  select_commits : List String
deriving Repr

def noFilters : Filters := ⟨none, none, none, none, []⟩

/-- `start_date and commit.committed_datetime < start_date.replace(...)`. -/
def beforeStart (f : Filters) (c : Commit) : Bool :=
  match f.start_date with
  | some sd => decide (c.timestamp < sd)
  | none => false

/-- `end_date and commit.committed_datetime > end_date.replace(...)`. -/
def afterEnd (f : Filters) (c : Commit) : Bool :=
  match f.end_date with
  | some ed => decide (ed < c.timestamp)
  | none => false

/-- `start_commit and not found_start_commit`. -/
def startPending (f : Filters) (found : Bool) : Bool :=
  f.start_commit.isSome && !found

/-- `commit.hexsha.startswith(start_commit)`. -/
def matchesStart (f : Filters) (c : Commit) : Bool :=
  match f.start_commit with
  | some sc => strStarts c.hexsha sc
  | none => false

/-- `end_commit and found_start_commit and commit.hexsha.startswith(end_commit)`. -/
def matchesEnd (f : Filters) (found : Bool) (c : Commit) : Bool :=
  match f.end_commit with
  | some ec => found && strStarts c.hexsha ec
  | none => false

/-- `GitRepo._commit_hexsha_in`: true iff the hash starts with one of the
given prefixes (the Python helper returns `True` or `None`; in the sole
call site `if not ...` treats `None` as false). -/
def startsWithAny (h : String) (ps : List String) : Bool :=
  ps.any (fun p => strStarts h p)

/-- Python `sorted(..., key=lambda c: c.committed_datetime)`: stable
ascending sort.  An earlier element is inserted before later elements of
equal timestamp, matching Timsort's stability. -/
def insertByTime (c : Commit) : List Commit → List Commit
  | [] => [c]
  | d :: rest =>
    if d.timestamp < c.timestamp then d :: insertByTime c rest else c :: d :: rest

def sortByTime : List Commit → List Commit
  | [] => []
  | c :: rest => insertByTime c (sortByTime rest)

/-- The loop body of `GitRepo.iter_commits` over the sorted commit list,
threading `found_start_commit`.  Mirrors the Python `if/elif` chain:
`continue` recurses on the tail, `break` returns `[]`, falling through
the chain checks out and yields the commit. -/
def iterCommitsLoop (f : Filters) : Bool → List Commit → List Commit
  | _, [] => []
  | found, c :: rest =>
    if beforeStart f c then iterCommitsLoop f found rest
    else if afterEnd f c then []
    else if startPending f found then
      (if matchesStart f c then c :: iterCommitsLoop f true rest
       else iterCommitsLoop f found rest)
    else if matchesEnd f found c then []
    else if !f.select_commits.isEmpty then
      (if startsWithAny c.hexsha f.select_commits then c :: iterCommitsLoop f found rest
       else iterCommitsLoop f found rest)
    else c :: iterCommitsLoop f found rest

/-- `GitRepo.iter_commits`: sort by timestamp, then run the filter loop
with `found_start_commit = False`. -/
def iterCommits (f : Filters) (history : List Commit) : List Commit :=
  iterCommitsLoop f false (sortByTime history)

/-- The commit-timestamp ordering used throughout. -/
def timeLE (a b : Commit) : Prop := a.timestamp ≤ b.timestamp

/-! #### Interaction of `start_commit`/`end_commit` with yielding (C2)

In the Python `if/elif` chain the `end_commit` branch executes `break`
before reaching the `checkout`/`yield` at the bottom of the loop body,
so the commit matching the `end_commit` prefix is never yielded — in
tension with the CLI help (`Stop running after this commit.`) and the
docstring (`end_commit: end with this commit`). -/

def histRange : List Commit := [⟨"aaa1", 1⟩, ⟨"bbb2", 2⟩, ⟨"ccc3", 3⟩]

def filtRange : Filters := ⟨none, none, some "aaa", some "bbb", []⟩

/-! #### Interaction of `start_commit` with `select_commits` (C3)

When the commit matching the `start_commit` prefix is first found, the
`elif` branch sets `found_start_commit = True` and falls through
directly to `checkout`/`yield`: the `select_commits` allow-list clause
(a later `elif`) is never evaluated for that commit. -/

def histSelect : List Commit := [⟨"aaa1", 1⟩]

def filtSelect : Filters := ⟨none, none, some "aa", none, ["zz"]⟩

def histC8 : List Commit := [⟨"aaa1", 5⟩, ⟨"bbb2", 5⟩]

def filtSelectW : Filters := ⟨none, none, none, none, ["aa"]⟩

def histSelectW : List Commit := [⟨"aab1", 1⟩]

/-! ### The aggregation engine (`compare.py`, `main`, lines 157-163)

For one field `col`, `main` keeps `data[col]`, a pandas DataFrame whose
first column is the id column and whose remaining columns are commit
short hashes.  Per processed commit it builds the two-column projection
`col_df = df[[id_col, col]]`, renames the value column to the commit's
short hash and outer-merges it on the id column
(`pd.merge(data[col], col_df, on=id_col, how='outer')`), creating the
table on first occurrence.

The model: a `FieldTable` keeps the list of commit column names and the
rows, each row an identifier paired with its list of cells (one per
commit column, `none` for pandas `NaN`).  A snapshot projection is a
list of (identifier, value) pairs in CSV row order (duplicates
permitted).  `mergeOuter` reproduces pandas' outer merge on the id
column: left rows are expanded by their key matches on the right,
unmatched left rows get an absent cell, unmatched right rows are added
with absent cells in all pre-existing columns, and a clash between an
existing column name and the new one is resolved by the default merge
suffixes `_x`/`_y` (pandas does not overwrite columns).  The row order
pandas produces for an outer merge is not reproduced exactly; no claim
depends on it. -/

abbrev Ident := String

structure FieldTable (V : Type) where
  commits : List String
  rows : List (Ident × List (Option V))
deriving DecidableEq, Repr

/-- Does the snapshot projection contain this identifier? -/
def snapHasId {V : Type} (s : List (Ident × V)) (i : Ident) : Bool :=
  s.any (fun p => decide (p.1 = i))

/-- Does the table contain a row for this identifier? -/
def tableHasId {V : Type} (t : FieldTable V) (i : Ident) : Bool :=
  t.rows.any (fun r => decide (r.1 = i))

/-- First occurrence of the field: `data[col] = col_df`. -/
def initTable {V : Type} (h : String) (snap : List (Ident × V)) : FieldTable V :=
  ⟨[h], snap.map (fun p => (p.1, [some p.2]))⟩

/-- `pd.merge(data[col], col_df, on=id_col, how='outer')` with `col_df`'s
value column named `h`. -/
def mergeOuter {V : Type} (t : FieldTable V) (h : String) (snap : List (Ident × V)) :
    FieldTable V :=
  { commits :=
      if t.commits.contains h then
        t.commits.map (fun c => if c = h then c ++ "_x" else c) ++ [h ++ "_y"]
      else t.commits ++ [h],
    rows :=
      (t.rows.flatMap (fun r =>
        if (snap.filter (fun p => decide (p.1 = r.1))).isEmpty then [(r.1, r.2 ++ [none])]
        else (snap.filter (fun p => decide (p.1 = r.1))).map
          (fun p => (r.1, r.2 ++ [some p.2]))))
      ++ ((snap.filter (fun p => !(t.rows.any (fun r => decide (r.1 = p.1))))).map
            (fun p => (p.1, List.replicate t.commits.length none ++ [some p.2]))) }

/-- Folding the per-commit loop body for one field over the sequence of
(commit short hash, snapshot projection) pairs, starting from an
existing table. -/
def buildTableAux {V : Type} (t : FieldTable V) :
    List (String × List (Ident × V)) → FieldTable V
  | [] => t
  | (h, s) :: rest => buildTableAux (mergeOuter t h s) rest

/-- The table accumulated for one field over a whole run: `none` when the
field was never seen (`col not in data`). -/
def buildTable {V : Type} : List (String × List (Ident × V)) → Option (FieldTable V)
  | [] => none
  | (h, s) :: rest => some (buildTableAux (initTable h s) rest)

/-- Cell of a row at commit-column position `k` (`none` for NaN). -/
def cellAt {V : Type} (cells : List (Option V)) (k : Nat) : Option V :=
  (cells.get? k).getD none

/-- The outer-join invariant tying a table to the snapshots already
folded into it. -/
def TableInv {V : Type} (snaps : List (String × List (Ident × V)))
    (t : FieldTable V) : Prop :=
  t.commits.length = snaps.length ∧
  (∀ i, tableHasId t i = true ↔ ∃ s ∈ snaps, snapHasId s.2 i = true) ∧
  (∀ r ∈ t.rows, r.2.length = snaps.length) ∧
  (∀ r ∈ t.rows, ∀ k s', snaps.get? k = some s' →
    snapHasId s'.2 r.1 = false → cellAt r.2 k = none)

def snapsC1 : List (String × List (Ident × Int)) :=
  [("c1", [("1", 10), ("2", 20)]), ("c2", [("1", 11)])]

def tC1 : FieldTable Int :=
  ⟨["c1", "c2"], [("1", [some 10, some 11]), ("2", [some 20, none])]⟩

def tC5 : FieldTable Int := ⟨["c1"], [("1", [some 5])]⟩

/-! ### Classification (`compare.py`, line 172)

`if df[df.columns[1]].dtypes not in ['O', 'bool'] and
df[df.columns[-1]].dtypes not in ['O', 'bool']` — position 0 of
`df.columns` is the id column, so position 1 is the first commit column
and position -1 the last one.  A field table always has at least one
commit column, so `df.columns` is modelled as `idD :: firstD :: restD`
where `firstD` is the first commit column's dtype and `restD` the
remaining commit columns' dtypes. -/

inductive DType
  | obj
  | bool
  | int64
  | float64
deriving DecidableEq, Repr

inductive Classification
  | Numeric
  | Categorical
deriving DecidableEq, Repr

/-- `dtype in ['O', 'bool']`. -/
def isTextualOrBool : DType → Bool
  | DType.obj => true
  | DType.bool => true
  | DType.int64 => false
  | DType.float64 => false

/-- Last element of `d :: l` (the dtype `df.columns[-1]` selects). -/
def lastDType (d : DType) : List DType → DType
  | [] => d
  | e :: rest => lastDType e rest

/-- The numeric/categorical branch condition of line 172: `idD` is the
id column's dtype (never inspected: `df.columns[1]` skips position 0),
`firstD` the first commit column's, `restD` the later commit
columns'. -/
def classifyCols (idD firstD : DType) (restD : List DType) : Classification :=
  if !(isTextualOrBool firstD) && !(isTextualOrBool (lastDType firstD restD)) then
    Classification.Numeric
  else Classification.Categorical

/-! ### Transition series for categorical fields
(`compare.py`, lines 192-199)

`equal_index`/`inequal_index` accumulate the pairs of `ddf.index` in
encounter order, and `ddf` is reindexed to `equal_index +
inequal_index`.  `splitTransitions` is that partition over the list of
(value-at-i, value-at-i+1) index pairs. -/

def splitTransitions : List (String × String) → List (String × String) × List (String × String)
  | [] => ([], [])
  | p :: rest =>
    let pr := splitTransitions rest
    if p.1 = p.2 then (p :: pr.1, pr.2) else (pr.1, p :: pr.2)

/-- `ddf.reindex(equal_index + inequal_index)` applied to the index. -/
def reorderTransitions (idx : List (String × String)) : List (String × String) :=
  (splitTransitions idx).1 ++ (splitTransitions idx).2

/-! ### `run_commands` (`compare.py`, lines 33-54)

Each candidate command's behaviour is abstracted by the stderr text its
two possible invocations produce: `firstErr` for
`{pre_command};{cmd}` and `retryErr` for the
`{pre_command_no_pip};{cmd}` retry. -/

structure CmdRun where
  firstErr : String
  retryErr : String
deriving DecidableEq, Repr

/-- The `err` value that reaches the failure test for one candidate:
a stderr mentioning `You are using pip` is discarded wholesale, and a
(remaining) stderr mentioning `requirements.txt` triggers the no-pip
retry, whose stderr replaces `err` without re-applying the pip
suppression. -/
def finalErr (c : CmdRun) : String :=
  let err1 := if strContains c.firstErr "You are using pip" then "" else c.firstErr
  if strContains err1 "requirements.txt" then c.retryErr else err1

/-- `str.lower()` (character-wise; the error markers are ASCII). -/
def strLower (s : String) : String := ⟨s.data.map Char.toLower⟩

/-- `'errno' in err.lower() or 'error:' in err.lower()`. -/
def judgedFailed (c : CmdRun) : Bool :=
  strContains (strLower (finalErr c)) "errno" || strContains (strLower (finalErr c)) "error:"

/-- The candidate loop: `failed` accumulates each failed candidate's
message; a non-failed candidate returns `None` (success); exhaustion
returns `'; '.join(failed)`. -/
def runCommandsAux : List String → List CmdRun → Option String
  | failed, [] => some (String.intercalate "; " failed)
  | failed, c :: rest =>
    if judgedFailed c then runCommandsAux (failed ++ [finalErr c]) rest
    else none

def runCommands (cs : List CmdRun) : Option String := runCommandsAux [] cs

/-! ### `GitRepo.__init__` (`gittools.py`, lines 12-21)

`cloneOk` abstracts whether `Repo.clone_from` succeeds for a given
destination directory; a raised `GitCommandError` propagates out of the
constructor.  The destination is the timestamp-suffixed
`{Path(git_url).name}_{dt}`; `cloneAttempts` lists every destination
the constructor passes to `clone_from`. -/

def cloneDest (repoName dt : String) : String := repoName ++ "_" ++ dt

def gitRepoInit (cloneOk : String → Bool) (repoName dt : String) : Except String String :=
  if cloneOk (cloneDest repoName dt) then Except.ok (cloneDest repoName dt)
  else Except.error ("GitCommandError: clone into " ++ cloneDest repoName dt ++ " failed")

def cloneAttempts (repoName dt : String) : List String := [cloneDest repoName dt]

/-! ### The summary guard (`compare.py`, lines 166-209)

Per field, the numeric branch appends `df[cols].sum()` to
`list_of_sums`; categorical fields append nothing.  After the loop,
`if not list_of_sums:` logs `No data collected during this process.`
and the summary chart is rendered only in the `else` branch.  A field
is carried as its name, its column dtypes (as for `classifyCols`) and
its accumulated table. -/

structure FieldInfo where
  name : String
  idD : DType
  firstD : DType
  restD : List DType
  table : FieldTable Int
deriving DecidableEq, Repr

/-- `df[cols].sum()` for one commit column: pandas sums over the
non-absent cells, i.e. absent cells contribute zero. -/
def colSum (rows : List (Ident × List (Option Int))) (k : Nat) : Int :=
  (rows.map (fun r => (cellAt r.2 k).getD 0)).sum

def columnSums (t : FieldTable Int) : List Int :=
  (List.range t.commits.length).map (colSum t.rows)

/-- `list_of_sums` after the per-field loop. -/
def buildSums : List FieldInfo → List (List Int)
  | [] => []
  | f :: rest =>
    if classifyCols f.idD f.firstD f.restD = Classification.Numeric then
      columnSums f.table :: buildSums rest
    else buildSums rest

/-- `if not list_of_sums: logger.warning(...)`. -/
def reportWarning (fields : List FieldInfo) : Option String :=
  if (buildSums fields).isEmpty then some "No data collected during this process."
  else none

/-- The summary chart is produced only in the `else` branch of the
guard. -/
def summaryRendered (fields : List FieldInfo) : Bool :=
  !(buildSums fields).isEmpty

def cmdC7 : CmdRun := ⟨"error: boom", ""⟩

def tableC10 : FieldTable Int := ⟨["c1"], [("1", [some 1])]⟩

def fieldC10 : FieldInfo := ⟨"status", DType.int64, DType.obj, [], tableC10⟩

theorem mem_insertByTime (c x : Commit) (l : List Commit) :
    x ∈ insertByTime c l ↔ x = c ∨ x ∈ l := by
  induction l with
  | nil => simp [insertByTime]
  | cons d rest ih =>
    by_cases hlt : d.timestamp < c.timestamp
    · simp only [insertByTime, if_pos hlt, List.mem_cons, ih]
      tauto
    · simp only [insertByTime, if_neg hlt, List.mem_cons]

theorem pairwise_insertByTime (c : Commit) (l : List Commit)
    (h : l.Pairwise timeLE) : (insertByTime c l).Pairwise timeLE := by
  induction l with
  | nil => simp [insertByTime, timeLE]
  | cons d rest ih =>
    rcases List.pairwise_cons.mp h with ⟨hd, hrest⟩
    by_cases hlt : d.timestamp < c.timestamp
    · simp only [insertByTime, if_pos hlt]
      refine List.pairwise_cons.mpr ⟨?_, ih hrest⟩
      intro y hy
      rcases (mem_insertByTime c y rest).mp hy with rfl | hmem
      · exact le_of_lt hlt
      · exact hd y hmem
    · simp only [insertByTime, if_neg hlt]
      refine List.pairwise_cons.mpr ⟨?_, h⟩
      intro y hy
      have hcd : timeLE c d := Int.not_lt.mp hlt
      rcases List.mem_cons.mp hy with rfl | hmem
      · exact hcd
      · exact le_trans hcd (hd y hmem)

theorem pairwise_sortByTime (l : List Commit) : (sortByTime l).Pairwise timeLE := by
  induction l with
  | nil => simp [sortByTime]
  | cons c rest ih => exact pairwise_insertByTime c (sortByTime rest) ih

theorem iterCommitsLoop_sublist (f : Filters) :
    ∀ (l : List Commit) (found : Bool), List.Sublist (iterCommitsLoop f found l) l := by
  intro l
  induction l with
  | nil => intro found; simp [iterCommitsLoop]
  | cons c rest ih =>
    intro found
    simp only [iterCommitsLoop]
    by_cases h1 : beforeStart f c
    · simp only [if_pos h1]; exact List.Sublist.cons c (ih found)
    · simp only [if_neg h1]
      by_cases h2 : afterEnd f c
      · simp only [if_pos h2]; exact List.nil_sublist _
      · simp only [if_neg h2]
        by_cases h3 : startPending f found
        · simp only [if_pos h3]
          by_cases h4 : matchesStart f c
          · simp only [if_pos h4]; exact List.Sublist.cons₂ c (ih true)
          · simp only [if_neg h4]; exact List.Sublist.cons c (ih found)
        · simp only [if_neg h3]
          by_cases h5 : matchesEnd f found c
          · simp only [if_pos h5]; exact List.nil_sublist _
          · simp only [if_neg h5]
            by_cases h6 : !f.select_commits.isEmpty
            · simp only [if_pos h6]
              by_cases h7 : startsWithAny c.hexsha f.select_commits
              · simp only [if_pos h7]; exact List.Sublist.cons₂ c (ih found)
              · simp only [if_neg h7]; exact List.Sublist.cons c (ih found)
            · simp only [if_neg h6]; exact List.Sublist.cons₂ c (ih found)

/-- C8 amended: the yielded sequence is ascending (non-strictly) in
commit timestamp. -/
theorem iterCommits_time_ascending (f : Filters) (history : List Commit) :
    (iterCommits f history).Pairwise timeLE :=
  List.Pairwise.sublist (iterCommitsLoop_sublist f (sortByTime history) false)
    (pairwise_sortByTime history)

theorem iterCommitsLoop_select (f : Filters) (hsel : f.select_commits ≠ []) :
    ∀ (l : List Commit) (found : Bool) (c : Commit),
      c ∈ iterCommitsLoop f found l →
      startsWithAny c.hexsha f.select_commits = true ∨ matchesStart f c = true := by
  intro l
  induction l with
  | nil => intro found c hc; simp [iterCommitsLoop] at hc
  | cons d rest ih =>
    intro found c hc
    simp only [iterCommitsLoop] at hc
    by_cases h1 : beforeStart f d
    · exact ih found c (by simpa [if_pos h1] using hc)
    · simp only [if_neg h1] at hc
      by_cases h2 : afterEnd f d
      · simp [if_pos h2] at hc
      · simp only [if_neg h2] at hc
        by_cases h3 : startPending f found
        · simp only [if_pos h3] at hc
          by_cases h4 : matchesStart f d
          · simp only [if_pos h4, List.mem_cons] at hc
            rcases hc with rfl | hc
            · right; exact h4
            · exact ih true c hc
          · exact ih found c (by simpa [if_neg h4] using hc)
        · simp only [if_neg h3] at hc
          by_cases h5 : matchesEnd f found d
          · simp [if_pos h5] at hc
          · simp only [if_neg h5] at hc
            have h6 : (!f.select_commits.isEmpty) = true := by
              cases hempty : f.select_commits with
              | nil => exact absurd hempty hsel
              | cons p ps => simp [hempty]
            simp only [if_pos h6] at hc
            by_cases h7 : startsWithAny d.hexsha f.select_commits
            · simp only [if_pos h7, List.mem_cons] at hc
              rcases hc with rfl | hc
              · left; exact h7
              · exact ih found c hc
            · exact ih found c (by simpa [if_neg h7] using hc)

/-- C8 counterexample: two commits sharing a timestamp are both yielded,
so the output is not strictly ascending in timestamp. -/
theorem iterCommits_not_strict :
    iterCommits noFilters histC8 = [⟨"aaa1", 5⟩, ⟨"bbb2", 5⟩] ∧
    ¬ (iterCommits noFilters histC8).Pairwise
        (fun a b => a.timestamp < b.timestamp) := by
  constructor
  · decide
  · decide

/-- C2: with `start_commit = "aaa"` and `end_commit = "bbb"` over a
three-commit history, the code yields only the start commit: the loop
`break`s on the commit matching the `end_commit` prefix before the
`checkout`/`yield`, so that commit is excluded, contrary to the
documented behaviour (`end with this commit` / `Stop running after this
commit.`). -/
theorem iterCommits_end_commit_excluded :
    iterCommits filtRange histRange = [⟨"aaa1", 1⟩] := by decide

/-- C3 counterexample: with allow-list `["zz"]` and `start_commit =
"aa"`, the commit `"aaa1"` is yielded although its hash matches no
allow-list entry — the start-commit branch bypasses the allow-list. -/
theorem iterCommits_select_bypass :
    iterCommits filtSelect histSelect = [⟨"aaa1", 1⟩] ∧
    startsWithAny "aaa1" ["zz"] = false := by
  constructor
  · decide
  · decide

/-- C3 amended: with a non-empty allow-list, every yielded commit's hash
starts with an allow-list entry or with the `start_commit` prefix (the
single commit at which the start filter first matches is yielded
without consulting the allow-list). -/
theorem iterCommits_allowlist (f : Filters) (hist : List Commit)
    (hsel : f.select_commits ≠ []) (c : Commit) (hc : c ∈ iterCommits f hist) :
    startsWithAny c.hexsha f.select_commits = true ∨ matchesStart f c = true :=
  iterCommitsLoop_select f hsel (sortByTime hist) false c hc

/-- Witness for `iterCommits_allowlist` at a concrete run. -/
theorem iterCommits_allowlist_witness :
    startsWithAny "aab1" ["aa"] = true ∨ matchesStart filtSelectW ⟨"aab1", 1⟩ = true :=
  iterCommits_allowlist filtSelectW histSelectW (by decide) ⟨"aab1", 1⟩ (by decide)

theorem cellAt_append_lt {V : Type} (l : List (Option V)) (x : Option V) (k : Nat)
    (hk : k < l.length) : cellAt (l ++ [x]) k = cellAt l k := by
  unfold cellAt
  rw [List.get?_eq_getElem?, List.get?_eq_getElem?, List.getElem?_append_left hk]

theorem cellAt_append_last {V : Type} (l : List (Option V)) (x : Option V) :
    cellAt (l ++ [x]) l.length = x := by
  unfold cellAt
  rw [List.get?_eq_getElem?, List.getElem?_concat_length]
  rfl

theorem cellAt_replicate_none {V : Type} (n k : Nat) :
    cellAt (List.replicate n (none : Option V)) k = none := by
  unfold cellAt
  cases hget : (List.replicate n (none : Option V)).get? k with
  | none => rfl
  | some v =>
    have hv : v = none := List.eq_of_mem_replicate (List.get?_mem hget)
    simp [hv]

/-- Characterisation of the rows of an outer merge: each result row is
either an existing row extended by its match (or by an absent cell), or
a fresh row for an identifier only present in the new snapshot. -/
theorem mem_mergeOuter_rows {V : Type} (t : FieldTable V) (hsh : String)
    (s : List (Ident × V)) (r' : Ident × List (Option V)) :
    r' ∈ (mergeOuter t hsh s).rows ↔
      ((∃ r ∈ t.rows,
          ((s.filter (fun p => decide (p.1 = r.1))).isEmpty = true ∧ r' = (r.1, r.2 ++ [none]))
          ∨ (∃ p ∈ s, p.1 = r.1 ∧ r' = (r.1, r.2 ++ [some p.2])))
       ∨ (∃ p ∈ s, tableHasId t p.1 = false ∧
            r' = (p.1, List.replicate t.commits.length none ++ [some p.2]))) := by
  constructor
  · intro hmem
    rcases List.mem_append.mp hmem with hA | hB
    · left
      rcases List.mem_flatMap.mp hA with ⟨r, hr, hin⟩
      refine ⟨r, hr, ?_⟩
      by_cases hms : (s.filter (fun p => decide (p.1 = r.1))).isEmpty = true
      · left
        simp only [hms, if_true, List.mem_singleton] at hin
        exact ⟨hms, hin⟩
      · right
        simp only [if_neg hms, List.mem_map] at hin
        rcases hin with ⟨p, hp, rfl⟩
        rcases List.mem_filter.mp hp with ⟨hps, hpeq⟩
        exact ⟨p, hps, of_decide_eq_true hpeq, rfl⟩
    · right
      rcases List.mem_map.mp hB with ⟨p, hp, rfl⟩
      rcases List.mem_filter.mp hp with ⟨hps, hcond⟩
      refine ⟨p, hps, ?_, rfl⟩
      simpa [tableHasId] using hcond
  · intro hcase
    rcases hcase with ⟨r, hr, hc⟩ | ⟨p, hp, hnot, rfl⟩
    · apply List.mem_append.mpr
      left
      apply List.mem_flatMap.mpr
      refine ⟨r, hr, ?_⟩
      rcases hc with ⟨hms, rfl⟩ | ⟨p, hps, hpeq, rfl⟩
      · simp only [hms, if_true, List.mem_singleton]
      · have hpf : p ∈ s.filter (fun p => decide (p.1 = r.1)) :=
          List.mem_filter.mpr ⟨hps, decide_eq_true hpeq⟩
        have hne : ¬ ((s.filter (fun p => decide (p.1 = r.1))).isEmpty = true) := by
          intro hempty
          rw [List.isEmpty_iff] at hempty
          rw [hempty] at hpf
          exact List.not_mem_nil p hpf
        rw [if_neg hne]
        exact List.mem_map.mpr ⟨p, hpf, rfl⟩
    · apply List.mem_append.mpr
      right
      apply List.mem_map.mpr
      refine ⟨p, ?_, rfl⟩
      apply List.mem_filter.mpr
      refine ⟨hp, ?_⟩
      simpa [tableHasId] using hnot

theorem mergeOuter_commits_length {V : Type} (t : FieldTable V) (hsh : String)
    (s : List (Ident × V)) :
    (mergeOuter t hsh s).commits.length = t.commits.length + 1 := by
  unfold mergeOuter
  by_cases hc : hsh ∈ t.commits <;> simp [hc]

theorem tableHasId_mergeOuter_left {V : Type} (t : FieldTable V) (hsh : String)
    (s : List (Ident × V)) (i : Ident) (hi : tableHasId t i = true) :
    tableHasId (mergeOuter t hsh s) i = true := by
  rcases List.any_eq_true.mp hi with ⟨r, hr, hdec⟩
  have hri : r.1 = i := of_decide_eq_true hdec
  apply List.any_eq_true.mpr
  by_cases hms : (s.filter (fun p => decide (p.1 = r.1))).isEmpty = true
  · exact ⟨(r.1, r.2 ++ [none]),
      (mem_mergeOuter_rows t hsh s _).mpr (Or.inl ⟨r, hr, Or.inl ⟨hms, rfl⟩⟩),
      decide_eq_true hri⟩
  · have hne : s.filter (fun p => decide (p.1 = r.1)) ≠ [] := by
      intro hempty
      exact hms (by rw [List.isEmpty_iff]; exact hempty)
    obtain ⟨p, hp⟩ := List.exists_mem_of_ne_nil _ hne
    rcases List.mem_filter.mp hp with ⟨hps, hpeq⟩
    exact ⟨(r.1, r.2 ++ [some p.2]),
      (mem_mergeOuter_rows t hsh s _).mpr
        (Or.inl ⟨r, hr, Or.inr ⟨p, hps, of_decide_eq_true hpeq, rfl⟩⟩),
      decide_eq_true hri⟩

theorem tableHasId_mergeOuter_new {V : Type} (t : FieldTable V) (hsh : String)
    (s : List (Ident × V)) (i : Ident) (hi : tableHasId t i = false)
    (hs : snapHasId s i = true) : tableHasId (mergeOuter t hsh s) i = true := by
  rcases List.any_eq_true.mp hs with ⟨p, hp, hdec⟩
  have hpi : p.1 = i := of_decide_eq_true hdec
  apply List.any_eq_true.mpr
  refine ⟨(p.1, List.replicate t.commits.length none ++ [some p.2]),
    (mem_mergeOuter_rows t hsh s _).mpr (Or.inr ⟨p, hp, ?_, rfl⟩),
    decide_eq_true hpi⟩
  rw [hpi]
  exact hi

theorem tableHasId_mergeOuter {V : Type} (t : FieldTable V) (hsh : String)
    (s : List (Ident × V)) (i : Ident) :
    tableHasId (mergeOuter t hsh s) i = true ↔
      (tableHasId t i = true ∨ snapHasId s i = true) := by
  constructor
  · intro hmem
    rcases List.any_eq_true.mp hmem with ⟨r', hr', hdec⟩
    have hri : r'.1 = i := of_decide_eq_true hdec
    rcases (mem_mergeOuter_rows t hsh s r').mp hr' with ⟨r, hr, hc⟩ | ⟨p, hp, _, heq⟩
    · left
      apply List.any_eq_true.mpr
      refine ⟨r, hr, decide_eq_true ?_⟩
      rcases hc with ⟨_, heq⟩ | ⟨p, _, _, heq⟩ <;>
        (rw [← hri, heq])
    · right
      apply List.any_eq_true.mpr
      refine ⟨p, hp, decide_eq_true ?_⟩
      rw [← hri, heq]
  · intro hor
    rcases hor with ht | hs
    · exact tableHasId_mergeOuter_left t hsh s i ht
    · by_cases htb : tableHasId t i = true
      · exact tableHasId_mergeOuter_left t hsh s i htb
      · exact tableHasId_mergeOuter_new t hsh s i (Bool.not_eq_true _ ▸ Bool.of_not_eq_true htb) hs

/-- One step of the aggregation loop preserves the outer-join invariant. -/
theorem mergeOuter_inv {V : Type} {snaps : List (String × List (Ident × V))}
    {t : FieldTable V} (hsh : String) (s : List (Ident × V))
    (ht : TableInv snaps t) : TableInv (snaps ++ [(hsh, s)]) (mergeOuter t hsh s) := by
  obtain ⟨h0, h1, h2, h3⟩ := ht
  refine ⟨?_, ?_, ?_, ?_⟩
  · rw [mergeOuter_commits_length, h0]
    simp
  · intro i
    rw [tableHasId_mergeOuter]
    constructor
    · rintro (hl | hr)
      · obtain ⟨s', hs', hid⟩ := (h1 i).mp hl
        exact ⟨s', List.mem_append_left _ hs', hid⟩
      · exact ⟨(hsh, s), List.mem_append_right _ (List.mem_singleton.mpr rfl), hr⟩
    · rintro ⟨s', hs', hid⟩
      rcases List.mem_append.mp hs' with hmem | hmem
      · exact Or.inl ((h1 i).mpr ⟨s', hmem, hid⟩)
      · rw [List.mem_singleton] at hmem
        subst hmem
        exact Or.inr hid
  · intro r' hr'
    rcases (mem_mergeOuter_rows t hsh s r').mp hr' with ⟨r, hr, hc⟩ | ⟨p, _, _, heq⟩
    · rcases hc with ⟨_, heq⟩ | ⟨p, _, _, heq⟩ <;>
        (rw [heq]; simp [h2 r hr])
    · rw [heq]
      simp [h0]
  · intro r' hr' k s' hget habs
    have hklen : k < snaps.length + 1 := by
      by_contra hge
      have hnone : (snaps ++ [(hsh, s)]).get? k = none := by
        apply List.get?_eq_none.mpr
        simpa using Nat.le_of_not_lt hge
      rw [hnone] at hget
      exact Option.noConfusion hget
    rcases (mem_mergeOuter_rows t hsh s r').mp hr' with ⟨r, hr, hc⟩ | ⟨p, hp, _, heq⟩
    · have hr1 : r'.1 = r.1 := by
        rcases hc with ⟨_, heq⟩ | ⟨q, _, _, heq⟩ <;> rw [heq]
      by_cases hklt : k < snaps.length
      · have hget' : snaps.get? k = some s' := by
          rw [← hget, List.get?_eq_getElem?, List.get?_eq_getElem?,
            List.getElem?_append_left hklt]
        have hcell : cellAt r.2 k = none := by
          apply h3 r hr k s' hget'
          rw [← hr1]
          exact habs
        rcases hc with ⟨_, heq⟩ | ⟨q, _, _, heq⟩
        · rw [heq]
          show cellAt (r.2 ++ [none]) k = none
          rw [cellAt_append_lt _ _ k (by rw [h2 r hr]; exact hklt)]
          exact hcell
        · rw [heq]
          show cellAt (r.2 ++ [some q.2]) k = none
          rw [cellAt_append_lt _ _ k (by rw [h2 r hr]; exact hklt)]
          exact hcell
      · have hkeq : k = snaps.length := by omega
        subst hkeq
        have hs' : s' = (hsh, s) := by
          rw [List.get?_eq_getElem?] at hget
          rw [List.getElem?_concat_length] at hget
          exact (Option.some_inj.mp hget).symm
        subst hs'
        rcases hc with ⟨hms, heq⟩ | ⟨q, hqs, hqe, heq⟩
        · rw [heq]
          have : r.2.length = snaps.length := h2 r hr
          rw [← this]
          exact cellAt_append_last r.2 none
        · exfalso
          have : snapHasId s r'.1 = true := by
            apply List.any_eq_true.mpr
            exact ⟨q, hqs, decide_eq_true (by rw [hr1, ← hqe])⟩
          rw [habs] at this
          exact Bool.false_ne_true this
    · by_cases hklt : k < snaps.length
      · rw [heq]
        have : (List.replicate t.commits.length (none : Option V)).length = t.commits.length :=
          List.length_replicate _ _
        rw [cellAt_append_lt _ _ k (by rw [this, h0]; exact hklt)]
        exact cellAt_replicate_none _ _
      · exfalso
        have hkeq : k = snaps.length := by omega
        subst hkeq
        have hs' : s' = (hsh, s) := by
          rw [List.get?_eq_getElem?] at hget
          rw [List.getElem?_concat_length] at hget
          exact (Option.some_inj.mp hget).symm
        subst hs'
        have : snapHasId s r'.1 = true := by
          apply List.any_eq_true.mpr
          refine ⟨p, hp, decide_eq_true ?_⟩
          rw [heq]
        rw [habs] at this
        exact Bool.false_ne_true this

theorem initTable_inv {V : Type} (hsh : String) (s : List (Ident × V)) :
    TableInv [(hsh, s)] (initTable hsh s) := by
  refine ⟨rfl, ?_, ?_, ?_⟩
  · intro i
    constructor
    · intro hmem
      rcases List.any_eq_true.mp hmem with ⟨r, hr, hdec⟩
      rcases List.mem_map.mp hr with ⟨p, hp, rfl⟩
      exact ⟨(hsh, s), List.mem_singleton.mpr rfl,
        List.any_eq_true.mpr ⟨p, hp, hdec⟩⟩
    · rintro ⟨s', hs', hid⟩
      rw [List.mem_singleton] at hs'
      subst hs'
      rcases List.any_eq_true.mp hid with ⟨p, hp, hdec⟩
      exact List.any_eq_true.mpr
        ⟨(p.1, [some p.2]), List.mem_map.mpr ⟨p, hp, rfl⟩, hdec⟩
  · intro r hr
    rcases List.mem_map.mp hr with ⟨p, _, rfl⟩
    rfl
  · intro r hr k s' hget habs
    rcases List.mem_map.mp hr with ⟨p, hp, rfl⟩
    cases k with
    | zero =>
      have hs' : s' = (hsh, s) := (Option.some_inj.mp hget).symm
      subst hs'
      exfalso
      have : snapHasId s p.1 = true := List.any_eq_true.mpr ⟨p, hp, decide_eq_true rfl⟩
      rw [show ((p.1, [some p.2]) : Ident × List (Option V)).1 = p.1 from rfl] at habs
      rw [habs] at this
      exact Bool.false_ne_true this
    | succ n =>
      exact absurd hget (by simp)

theorem buildTableAux_inv {V : Type} :
    ∀ (rest snaps : List (String × List (Ident × V))) (t : FieldTable V),
      TableInv snaps t → TableInv (snaps ++ rest) (buildTableAux t rest)
  | [], snaps, t, ht => by simpa [buildTableAux] using ht
  | (hsh, s) :: rest, snaps, t, ht => by
    have hstep := mergeOuter_inv hsh s ht
    have hrec := buildTableAux_inv rest (snaps ++ [(hsh, s)]) (mergeOuter t hsh s) hstep
    simpa [buildTableAux, List.append_assoc] using hrec

/-- C1: the accumulated Field Table's identifier set is the union of the
identifier sets of all ingested snapshots, every row carries one cell
per ingested commit, and an identifier absent from the `k`-th commit's
snapshot has an absent (`none`) cell in that commit's column. -/
theorem buildTable_outer_join {V : Type} (snaps : List (String × List (Ident × V)))
    (t : FieldTable V) (ht : buildTable snaps = some t) :
    (∀ i, tableHasId t i = true ↔ ∃ s ∈ snaps, snapHasId s.2 i = true) ∧
    (∀ r ∈ t.rows, r.2.length = snaps.length) ∧
    (∀ r ∈ t.rows, ∀ k s', snaps.get? k = some s' →
      snapHasId s'.2 r.1 = false → cellAt r.2 k = none) := by
  cases snaps with
  | nil => exact absurd ht (by simp [buildTable])
  | cons hd rest =>
    obtain ⟨hsh, s⟩ := hd
    simp only [buildTable, Option.some.injEq] at ht
    subst ht
    have hinv := buildTableAux_inv rest [(hsh, s)] (initTable hsh s) (initTable_inv hsh s)
    rw [List.singleton_append] at hinv
    exact hinv.2

/-- Witness for `buildTable_outer_join`: identifier "2" is absent from
the second snapshot, and its cell in the second commit column is
absent. -/
theorem buildTable_outer_join_witness :
    cellAt [some (20 : Int), none] 1 = none :=
  (buildTable_outer_join snapsC1 tC1 (by decide)).2.2 ("2", [some 20, none]) (by decide)
    1 ("c2", [("1", 11)]) (by decide) (by decide)

/-- C5 counterexample: ingesting the same one-record snapshot twice
under the same commit short hash "c1" does not overwrite the column; the
pandas merge renames the colliding columns with the `_x`/`_y` suffixes,
leaving two columns for the one commit. -/
theorem buildTable_same_commit_duplicates :
    buildTable [("c1", [(("1" : Ident), (5 : Int))]), ("c1", [("1", 5)])]
      = some ⟨["c1_x", "c1_y"], [("1", [some 5, some 5])]⟩ ∧
    (["c1_x", "c1_y"] : List String).length = 2 ∧
    ("c1" ∈ (["c1_x", "c1_y"] : List String)) = False := by
  refine ⟨by decide, rfl, by simp⟩

/-- C5 amended: merging a snapshot under an already-present commit
column name appends a new column (renaming the colliding pair to
`_x`/`_y`) instead of overwriting, so each ingestion grows the column
count by one even on a name collision. -/
theorem mergeOuter_collision_appends {V : Type} (t : FieldTable V) (hsh : String)
    (s : List (Ident × V)) (hcol : hsh ∈ t.commits) :
    (mergeOuter t hsh s).commits =
      t.commits.map (fun c => if c = hsh then c ++ "_x" else c) ++ [hsh ++ "_y"] ∧
    (mergeOuter t hsh s).commits.length = t.commits.length + 1 := by
  constructor
  · unfold mergeOuter
    simp [hcol]
  · exact mergeOuter_commits_length t hsh s

/-- Witness for `mergeOuter_collision_appends` at a concrete table. -/
theorem mergeOuter_collision_appends_witness :
    (mergeOuter tC5 "c1" [(("1" : Ident), (5 : Int))]).commits =
      tC5.commits.map (fun c => if c = "c1" then c ++ "_x" else c) ++ ["c1" ++ "_y"] ∧
    (mergeOuter tC5 "c1" [(("1" : Ident), (5 : Int))]).commits.length =
      tC5.commits.length + 1 :=
  mergeOuter_collision_appends tC5 "c1" [("1", 5)] (by decide)

theorem lastDType_eq_getLast (d : DType) (l : List DType) :
    lastDType d l = (d :: l).getLast (List.cons_ne_nil d l) := by
  induction l generalizing d with
  | nil => rfl
  | cons e rest ih =>
    rw [show lastDType d (e :: rest) = lastDType e rest from rfl, ih e,
      List.getLast_cons (List.cons_ne_nil e rest)]

/-- C4: classification inspects exactly the dtypes of the first and last
commit columns — it is `Categorical` iff either of those two is textual
(`'O'`) or boolean, `Numeric` otherwise; with a single commit column
that one column plays both roles. -/
theorem classify_first_last (idD firstD : DType) (restD : List DType) :
    (classifyCols idD firstD restD = Classification.Categorical ↔
      (isTextualOrBool firstD = true ∨
       isTextualOrBool ((firstD :: restD).getLast (List.cons_ne_nil firstD restD)) = true)) ∧
    classifyCols idD firstD [] =
      (if isTextualOrBool firstD then Classification.Categorical
       else Classification.Numeric) := by
  constructor
  · rw [← lastDType_eq_getLast]
    unfold classifyCols
    cases h1 : isTextualOrBool firstD <;>
      cases h2 : isTextualOrBool (lastDType firstD restD) <;>
      simp [h1, h2]
  · unfold classifyCols
    cases h1 : isTextualOrBool firstD <;> simp [h1, lastDType]

theorem splitTransitions_fst :
    ∀ idx : List (String × String),
      (splitTransitions idx).1 = idx.filter (fun p => decide (p.1 = p.2))
  | [] => rfl
  | p :: rest => by
    simp only [splitTransitions, List.filter_cons]
    by_cases h : p.1 = p.2 <;> simp [h, splitTransitions_fst rest]

theorem splitTransitions_snd :
    ∀ idx : List (String × String),
      (splitTransitions idx).2 = idx.filter (fun p => !decide (p.1 = p.2))
  | [] => rfl
  | p :: rest => by
    simp only [splitTransitions, List.filter_cons]
    by_cases h : p.1 = p.2 <;> simp [h, splitTransitions_snd rest]

/-- C6: the reordered transition index lists first exactly the pairs
with equal values, in encounter order, then exactly the pairs with
differing values, in encounter order (filtering preserves encounter
order). -/
theorem reorderTransitions_eq (idx : List (String × String)) :
    reorderTransitions idx =
      idx.filter (fun p => decide (p.1 = p.2)) ++
      idx.filter (fun p => !decide (p.1 = p.2)) := by
  unfold reorderTransitions
  rw [splitTransitions_fst, splitTransitions_snd]

theorem runCommandsAux_none_iff :
    ∀ (cs : List CmdRun) (failed : List String),
      runCommandsAux failed cs = none ↔ ∃ c ∈ cs, judgedFailed c = false
  | [], failed => by simp [runCommandsAux]
  | c :: rest, failed => by
    by_cases h : judgedFailed c
    · rw [show runCommandsAux failed (c :: rest) =
        runCommandsAux (failed ++ [finalErr c]) rest by simp [runCommandsAux, h]]
      rw [runCommandsAux_none_iff rest (failed ++ [finalErr c])]
      constructor
      · rintro ⟨d, hd, hdf⟩
        exact ⟨d, List.mem_cons_of_mem c hd, hdf⟩
      · rintro ⟨d, hd, hdf⟩
        rcases List.mem_cons.mp hd with rfl | hd
        · rw [h] at hdf
          exact absurd hdf (by simp)
        · exact ⟨d, hd, hdf⟩
    · rw [show runCommandsAux failed (c :: rest) = none by simp [runCommandsAux, h]]
      simp only [true_iff]
      exact ⟨c, List.mem_cons_self c rest, by simpa using h⟩

theorem runCommandsAux_all_failed :
    ∀ (cs : List CmdRun) (failed : List String),
      (∀ c ∈ cs, judgedFailed c = true) →
      runCommandsAux failed cs =
        some (String.intercalate "; " (failed ++ cs.map finalErr))
  | [], failed, _ => by simp [runCommandsAux]
  | c :: rest, failed, hall => by
    have hc : judgedFailed c = true := hall c (List.mem_cons_self c rest)
    rw [show runCommandsAux failed (c :: rest) =
      runCommandsAux (failed ++ [finalErr c]) rest by simp [runCommandsAux, hc]]
    rw [runCommandsAux_all_failed rest (failed ++ [finalErr c])
      (fun d hd => hall d (List.mem_cons_of_mem c hd))]
    simp

/-- C7: `run_commands` succeeds (returns `None`) iff some candidate is
not judged failed — where a candidate is judged failed iff its
post-suppression, post-retry stderr contains `errno` or `error:`
case-insensitively — and when every candidate is judged failed it
returns all the failure messages joined by `'; '`. -/
theorem runCommands_spec (cs : List CmdRun) :
    (runCommands cs = none ↔
      ∃ c ∈ cs, (strContains (strLower (finalErr c)) "errno" ||
                 strContains (strLower (finalErr c)) "error:") = false) ∧
    ((∀ c ∈ cs, (strContains (strLower (finalErr c)) "errno" ||
                 strContains (strLower (finalErr c)) "error:") = true) →
      runCommands cs = some (String.intercalate "; " (cs.map finalErr))) := by
  constructor
  · rw [show runCommands cs = runCommandsAux [] cs from rfl,
      runCommandsAux_none_iff cs []]
    rfl
  · intro hall
    rw [show runCommands cs = runCommandsAux [] cs from rfl,
      runCommandsAux_all_failed cs [] (fun c hc => hall c hc)]
    simp

/-- Witness for `runCommands_spec`: one candidate whose stderr carries
an `error:` marker makes the run fail with that message. -/
theorem runCommands_spec_witness :
    runCommands [cmdC7] = some (String.intercalate "; " ([cmdC7].map finalErr)) :=
  (runCommands_spec [cmdC7]).2 (by decide)

/-- C9 counterexample: a clone failure at the one timestamped
destination is immediately fatal although cloning into any other
directory name (e.g. `repo_alt`) would have succeeded — no alternate
destination is attempted, `clone_from` is called exactly once. -/
theorem gitRepoInit_no_retry :
    gitRepoInit (fun d => !(d == cloneDest "repo" "20260101_000000"))
        "repo" "20260101_000000"
      = Except.error ("GitCommandError: clone into " ++
          cloneDest "repo" "20260101_000000" ++ " failed") ∧
    (fun d => !(d == cloneDest "repo" "20260101_000000")) "repo_alt" = true ∧
    cloneAttempts "repo" "20260101_000000" = [cloneDest "repo" "20260101_000000"] := by
  refine ⟨by rfl, by decide, rfl⟩

/-- C9 amended: initialization makes exactly one clone attempt, into the
single timestamp-suffixed destination, and a clone failure there is
immediately fatal with no retry under an alternate directory name. -/
theorem gitRepoInit_single_attempt (cloneOk : String → Bool) (repoName dt : String)
    (hfail : cloneOk (cloneDest repoName dt) = false) :
    gitRepoInit cloneOk repoName dt =
      Except.error ("GitCommandError: clone into " ++ cloneDest repoName dt ++ " failed") ∧
    (cloneAttempts repoName dt).length = 1 := by
  constructor
  · unfold gitRepoInit
    rw [hfail]
    simp
  · rfl

/-- Witness for `gitRepoInit_single_attempt`. -/
theorem gitRepoInit_single_attempt_witness :
    gitRepoInit (fun _ => false) "repo" "20260101_000000" =
      Except.error ("GitCommandError: clone into " ++
        cloneDest "repo" "20260101_000000" ++ " failed") ∧
    (cloneAttempts "repo" "20260101_000000").length = 1 :=
  gitRepoInit_single_attempt (fun _ => false) "repo" "20260101_000000" rfl

theorem buildSums_eq_nil_iff :
    ∀ fields : List FieldInfo,
      buildSums fields = [] ↔
        ∀ f ∈ fields, classifyCols f.idD f.firstD f.restD ≠ Classification.Numeric
  | [] => by simp [buildSums]
  | f :: rest => by
    by_cases h : classifyCols f.idD f.firstD f.restD = Classification.Numeric
    · simp [buildSums, h]
    · simp [buildSums, h, buildSums_eq_nil_iff rest]

/-- C10: the `No data collected` warning fires exactly when no field was
classified `Numeric` (the guard looks at `list_of_sums`, not at the
collected data), so a run whose every field is `Categorical` reports the
no-data condition and renders no cross-field summary even though data
was collected. -/
theorem noNumeric_no_summary (fields : List FieldInfo) :
    (reportWarning fields = some "No data collected during this process." ↔
      ∀ f ∈ fields, classifyCols f.idD f.firstD f.restD ≠ Classification.Numeric) ∧
    ((∀ f ∈ fields, classifyCols f.idD f.firstD f.restD = Classification.Categorical) →
      reportWarning fields = some "No data collected during this process." ∧
      summaryRendered fields = false) := by
  have h1 : reportWarning fields = some "No data collected during this process." ↔
      buildSums fields = [] := by
    cases hb : buildSums fields with
    | nil => simp [reportWarning, hb]
    | cons a l => simp [reportWarning, hb]
  constructor
  · rw [h1]
    exact buildSums_eq_nil_iff fields
  · intro hcat
    have hnum : ∀ f ∈ fields, classifyCols f.idD f.firstD f.restD ≠ Classification.Numeric := by
      intro f hf heq
      rw [hcat f hf] at heq
      exact Classification.noConfusion heq
    have hnil : buildSums fields = [] := (buildSums_eq_nil_iff fields).mpr hnum
    refine ⟨h1.mpr hnil, ?_⟩
    unfold summaryRendered
    rw [hnil]
    rfl

/-- Witness for `noNumeric_no_summary`: a run with one categorical field
holding data still warns `No data collected` and skips the summary. -/
theorem noNumeric_no_summary_witness :
    reportWarning [fieldC10] = some "No data collected during this process." ∧
    summaryRendered [fieldC10] = false :=
  (noNumeric_no_summary [fieldC10]).2 (by decide)

end CommitCompare
